import Mathlib

/-!
Verification of the revoice segment post-processing pipeline
(`src/revoice/cli.py` and `src/revoice/postprocess.py`).

Python floats are modelled as exact rationals (`ℚ`), Python ints as `ℤ`,
Python strings as Lean `String` (with character-list reasoning where
needed).  Python's floor-division/`divmod` is modelled with `Int.fdiv` /
`Int.fmod`, and Python's `round` (round-half-to-even) is modelled
explicitly.
-/

attribute [local semireducible] Rat.add Rat.sub Rat.mul Rat.inv Rat.ofScientific

namespace Revoice

/-- A transcription segment `(start, end, text)`, as in the Python code's
`Tuple[float, float, str]`. -/
abbrev Segment := ℚ × ℚ × String

/-! ### Python string / number primitives -/

/-- Python's `round` on a real number: round half to even, as used by
`int(round(x))` in `hhmmss_ms`, `webvtt_ts` and `format_mmss`. -/
def pyRound (q : ℚ) : ℤ :=
  let n := q.floor
  let r := q - n
  if r < 1/2 then n
  else if 1/2 < r then n + 1
  else if Int.emod n 2 = 0 then n else n + 1

/-- Left pad a string with zeros up to width `w` (body of Python's
`{:0wd}` formatting for a non-negative number). -/
def zeroPad (w : Nat) (s : String) : String :=
  String.mk (List.replicate (w - s.length) '0') ++ s

/-- Python's `f"{n:0wd}"` integer formatting: zero-padded to width `w`,
with the sign (if any) in front of the padding. -/
def padInt (w : Nat) (n : ℤ) : String :=
  if n < 0 then "-" ++ zeroPad (w - 1) (toString (-n)) else zeroPad w (toString n)

/-! ### Time formatters (`cli.py`) -/

/-- Model of `hhmmss_ms` from `cli.py`: `HH:MM:SS,mmm` with comma millisecond
separator. -/
def hhmmss_ms (seconds : ℚ) : String :=
  let ms0 := pyRound (seconds * 1000)
  let s0 := Int.fdiv ms0 1000
  let ms := Int.fmod ms0 1000
  let m0 := Int.fdiv s0 60
  let s := Int.fmod s0 60
  let h := Int.fdiv m0 60
  let m := Int.fmod m0 60
  padInt 2 h ++ ":" ++ padInt 2 m ++ ":" ++ padInt 2 s ++ "," ++ padInt 3 ms

/-- Model of `webvtt_ts` from `cli.py`: identical arithmetic to `hhmmss_ms`, with a
period millisecond separator. -/
def webvtt_ts (seconds : ℚ) : String :=
  let ms0 := pyRound (seconds * 1000)
  let s0 := Int.fdiv ms0 1000
  let ms := Int.fmod ms0 1000
  let m0 := Int.fdiv s0 60
  let s := Int.fmod s0 60
  let h := Int.fdiv m0 60
  let m := Int.fmod m0 60
  padInt 2 h ++ ":" ++ padInt 2 m ++ ":" ++ padInt 2 s ++ "." ++ padInt 3 ms

/-! ### Python whitespace primitives

`str.strip()` and `re.sub(r"\s+", " ", ·)` modelled on character lists. -/

/-- Whitespace test, modelling the character class `\s` (and the
characters stripped by `str.strip()`). -/
def isWs (c : Char) : Bool := c.isWhitespace

/-- Drop leading whitespace (the left half of `str.strip()`). -/
def dropLead (l : List Char) : List Char := l.dropWhile isWs

/-- Drop trailing whitespace (the right half of `str.strip()`). -/
def dropTrail (l : List Char) : List Char := (l.reverse.dropWhile isWs).reverse

/-- Python's `str.strip()` on a character list. -/
def pyStrip (l : List Char) : List Char := dropTrail (dropLead l)

/-- Python's `str.strip()` on strings. -/
def pyStripStr (s : String) : String := String.mk (pyStrip s.data)

/-- Replace every maximal whitespace run by a single space: the effect of
`re.sub(r"\s+", " ", ·)`.  The flag records whether the previous
character was whitespace (i.e. we are inside a run). -/
def squeezeAux : Bool → List Char → List Char
  | _, [] => []
  | prevWs, c :: cs =>
    if isWs c then
      if prevWs then squeezeAux true cs else ' ' :: squeezeAux true cs
    else c :: squeezeAux false cs

/-- Model of `re.sub(r"\s+", " ", ·)` on a character list. -/
def squeezeWs (l : List Char) : List Char := squeezeAux false l

/-- Model of `_normalize_whitespace` from `postprocess.py`:
`re.sub(r"\s+", " ", text).strip()`. -/
def _normalize_whitespace (s : String) : String :=
  String.mk (pyStrip (squeezeWs s.data))

/-- Joining of two whitespace-normalized texts: if either side is empty
the other is returned, otherwise they are joined by a single space.
Used to describe `_normalize_whitespace` on concatenations. -/
def glue (x y : List Char) : List Char :=
  if x = [] then y else if y = [] then x else x ++ ' ' :: y

/-- Python's `sep.join(parts)`. -/
def joinWith (sep : String) : List String → String
  | [] => ""
  | [x] => x
  | x :: xs => x ++ sep ++ joinWith sep xs

/-! ### Subtitle writers (`cli.py`)

`write_srt` / `write_vtt` / `write_txt` write to a file; they are
modelled as producing the file's full contents as a string. -/

/-- Body of the `enumerate(segments, start=1)` loop of `write_srt`. -/
def srtGo (i : Nat) : List Segment → String
  | [] => ""
  | (s, e, t) :: rest =>
    toString i ++ "\n" ++ hhmmss_ms s ++ " --> " ++ hhmmss_ms e ++ "\n"
      ++ pyStripStr t ++ "\n\n" ++ srtGo (i + 1) rest

/-- Model of `write_srt` from `cli.py`, as the contents written to the file. -/
def write_srt (segments : List Segment) : String := srtGo 1 segments

/-- Model of `write_vtt` from `cli.py`, as the contents written to the file. -/
def write_vtt (segments : List Segment) : String :=
  "WEBVTT\n\n" ++ joinWith ""
    (segments.map fun (s, e, t) =>
      webvtt_ts s ++ " --> " ++ webvtt_ts e ++ "\n" ++ pyStripStr t ++ "\n\n")

/-- Model of `format_mmss` from `cli.py`. -/
def format_mmss (seconds : ℚ) : String :=
  let total : ℤ := max 0 (pyRound seconds)
  let m0 := Int.fdiv total 60
  let s := Int.fmod total 60
  let h := Int.fdiv m0 60
  let m := Int.fmod m0 60
  if h ≠ 0 then padInt 2 h ++ ":" ++ padInt 2 m ++ ":" ++ padInt 2 s
  else padInt 2 m ++ ":" ++ padInt 2 s

/-! ### Segment bucketer (`cli.py`) -/

/-- The loop of `bucket_segments`: state is the output list `grouped`,
the current bucket index, the current aggregate's start/end and the
collected member texts. -/
def bucketGo (w : ℚ) (grouped : List Segment) (curBucket : ℤ)
    (bStart bEnd : ℚ) (texts : List String) : List Segment → List Segment
  | [] => grouped ++ [(bStart, bEnd, pyStripStr (joinWith " " texts))]
  | (s, e, t) :: rest =>
    let bucket : ℤ := (s / w).floor
    if bucket = curBucket then
      bucketGo w grouped curBucket bStart (max bEnd e) (texts ++ [t]) rest
    else
      bucketGo w (grouped ++ [(bStart, bEnd, pyStripStr (joinWith " " texts))])
        bucket s e [t] rest

/-- Model of `bucket_segments` from `cli.py`.  `int(start // bucket_seconds)` is
`⌊start / bucket_seconds⌋` (Python float floor division followed by
`int`). -/
def bucket_segments (segments : List Segment) (bucket_seconds : ℚ) : List Segment :=
  match segments with
  | [] => segments
  | (s0, e0, t0) :: rest =>
    if bucket_seconds ≤ 0 then segments
    else bucketGo bucket_seconds [] ((s0 / bucket_seconds).floor) s0 e0 [t0] rest

/-- The timestamped branch of `write_txt`: one `[label] text` line per
bucket whose stripped text is non-empty. -/
def txtTsGo : List Segment → String
  | [] => ""
  | (s, _e, t) :: rest =>
    let label := format_mmss s
    let content := pyStripStr t
    (if content ≠ "" then "[" ++ label ++ "] " ++ content ++ "\n" else "")
      ++ txtTsGo rest

/-- The plain branch of `write_txt`: one stripped-text line per segment. -/
def txtPlainGo : List Segment → String
  | [] => ""
  | (_s, _e, t) :: rest => pyStripStr t ++ "\n" ++ txtPlainGo rest

/-- Model of `write_txt` from `cli.py`, as the contents written to the file.
With timestamps it buckets at the default width `10.0`. -/
def write_txt (segments : List Segment) (with_timestamps : Bool) : String :=
  if with_timestamps then txtTsGo (bucket_segments segments 10)
  else txtPlainGo segments

/-! ### Segment merger (`cli.py`) -/

/-- The loop of `merge_short_segments`: state is the output list
`merged` and the current accumulator `(curS, curE, curT)`. -/
def mergeGo (min_duration : ℚ) (merged : List Segment)
    (curS curE : ℚ) (curT : String) : List Segment → List Segment
  | [] => merged ++ [(curS, curE, curT)]
  | (s, e, t) :: rest =>
    if curE - curS < min_duration then
      mergeGo min_duration merged curS e (pyStripStr (curT ++ " " ++ t)) rest
    else
      mergeGo min_duration (merged ++ [(curS, curE, curT)]) s e t rest

/-- Model of `merge_short_segments` from `cli.py`. -/
def merge_short_segments (segments : List Segment) (min_duration : ℚ) : List Segment :=
  match segments with
  | [] => segments
  | (s, e, t) :: rest => mergeGo min_duration [] s e t rest

/-- Model of `apply_replacements` from `cli.py`: left-to-right literal substring
substitution. -/
def apply_replacements (text : String) : List (String × String) → String
  | [] => text
  | (a, b) :: rest => apply_replacements (text.replace a b) rest

/-! ### Sentence reconstruction and transcript rendering
(`postprocess.py`) -/

/-- Model of `SENTENCE_ENDERS` from `postprocess.py`: the characters of the
string `"。.!?！？…‥"`. -/
def SENTENCE_ENDERS : List Char := ['。', '.', '!', '?', '！', '？', '…', '‥']

/-- The character loop of `_collect_sentences`: state is the collected
`sentences` and the current character `buffer`. -/
def collectGo (sentences : List String) (buffer : List Char) :
    List Char → List String
  | [] =>
    if buffer = [] then sentences
    else
      let sentence := _normalize_whitespace (String.mk buffer)
      if sentence = "" then sentences else sentences ++ [sentence]
  | ch :: rest =>
    let buffer' := buffer ++ [ch]
    if ch ∈ SENTENCE_ENDERS then
      let sentence := _normalize_whitespace (String.mk buffer')
      collectGo (if sentence = "" then sentences else sentences ++ [sentence]) [] rest
    else
      collectGo sentences buffer' rest

/-- Model of `_collect_sentences` from `postprocess.py`. -/
def _collect_sentences (chunks : List String) : List String :=
  let joined := _normalize_whitespace
    (joinWith " " ((chunks.filter fun c => pyStripStr c ≠ "").map pyStripStr))
  if joined = "" then [] else collectGo [] [] joined.data

/-- The list-comprehension paragraphs of `format_plain_text`:
`[''.join(sentences[i:i+n]) for i in range(0, len(sentences), n)]`.
The `range(0, len, n)` loop is modelled with a step-count fuel equal to
`len`, which suffices for any positive step `n`. -/
def paraChunks (n : Nat) : Nat → List String → List String
  | _, [] => []
  | 0, _ => []
  | fuel + 1, ss => joinWith "" (ss.take n) :: paraChunks n fuel (ss.drop n)

/-- Model of `format_plain_text` from `postprocess.py`. -/
def format_plain_text (segments : List Segment)
    (sentences_per_paragraph : Nat := 3) : String :=
  let sentences := _collect_sentences (segments.map fun seg => seg.2.2)
  if sentences = [] then ""
  else joinWith "\n\n"
    (paraChunks sentences_per_paragraph sentences.length sentences)

/-- Model of `format_markdown_text` from `postprocess.py`. -/
def format_markdown_text (segments : List Segment) : String :=
  let sentences := _collect_sentences (segments.map fun seg => seg.2.2)
  if sentences = [] then ""
  else joinWith "\n" (sentences.map fun sentence => "- " ++ sentence)

/-- Python's `str.lower()`, characterwise. -/
def pyLower (s : String) : String := String.mk (s.data.map Char.toLower)

/-- Model of `format_transcript` from `postprocess.py`.  The `style` argument may
be Python `None` (modelled by `Option`); `style or "plain"` replaces both
`None` and the empty string with `"plain"`.  The `ValueError` raised for
an unsupported style is modelled with `Except`. -/
def format_transcript (segments : List Segment) (style : Option String) :
    Except String String :=
  let style := pyLower (match style with
    | none => "plain"
    | some s => if s = "" then "plain" else s)
  if style = "plain" then Except.ok (format_plain_text segments)
  else if style = "markdown" then Except.ok (format_markdown_text segments)
  else Except.error ("Unsupported transcript style: " ++ style)

/-! ### Whitespace normalization lemmas -/

theorem isWs_space : isWs ' ' = true := rfl

theorem dropTrail_nil : dropTrail ([] : List Char) = [] := rfl

theorem dropLead_eq_nil_iff {l : List Char} : dropLead l = [] ↔ ∀ c ∈ l, isWs c := by
  simp [dropLead, List.dropWhile_eq_nil_iff]

theorem dropTrail_eq_nil_iff {l : List Char} : dropTrail l = [] ↔ ∀ c ∈ l, isWs c := by
  simp [dropTrail, List.dropWhile_eq_nil_iff, List.reverse_eq_nil_iff, List.mem_reverse]

theorem dropLead_idem (l : List Char) : dropLead (dropLead l) = dropLead l :=
  List.dropWhile_idempotent _ _

theorem dropTrail_idem (l : List Char) : dropTrail (dropTrail l) = dropTrail l := by
  simp [dropTrail, List.reverse_reverse, List.dropWhile_idempotent]

/-- Recursive characterization of `dropTrail` on a cons cell. -/
theorem dropTrail_cons (c : Char) (cs : List Char) :
    dropTrail (c :: cs)
      = if dropTrail cs = [] then (if isWs c then [] else [c])
        else c :: dropTrail cs := by
  have hrev : dropTrail cs = [] ↔ cs.reverse.dropWhile isWs = [] := by
    simp [dropTrail, List.reverse_eq_nil_iff]
  show ((c :: cs).reverse.dropWhile isWs).reverse = _
  rw [List.reverse_cons, List.dropWhile_append]
  by_cases h : cs.reverse.dropWhile isWs = []
  · rw [if_pos (by simp [h]), if_pos (hrev.2 h)]
    by_cases hc : isWs c
    · simp [List.dropWhile_cons, hc]
    · simp [List.dropWhile_cons, hc]
  · rw [if_neg (by simp [h]), if_neg (fun hn => h (hrev.1 hn))]
    simp [dropTrail, List.reverse_append]

theorem dropTrail_cons_ne {cs : List Char} (h : dropTrail cs ≠ []) (c : Char) :
    dropTrail (c :: cs) = c :: dropTrail cs := by
  rw [dropTrail_cons, if_neg h]

theorem dropTrail_cons_not_ws {c : Char} (hc : isWs c = false) (cs : List Char) :
    dropTrail (c :: cs) = c :: dropTrail cs := by
  rw [dropTrail_cons]
  by_cases h : dropTrail cs = []
  · rw [if_pos h, if_neg (by simp [hc]), h]
  · rw [if_neg h]

/-- Dropping leading and trailing whitespace commute. -/
theorem dropLead_dropTrail (l : List Char) :
    dropLead (dropTrail l) = dropTrail (dropLead l) := by
  induction l with
  | nil => rfl
  | cons c cs ih =>
    by_cases hc : isWs c
    · have h1 : dropLead (c :: cs) = dropLead cs := by
        simp [dropLead, List.dropWhile_cons, hc]
      rw [dropTrail_cons, h1]
      by_cases h : dropTrail cs = []
      · rw [if_pos h, if_pos hc]
        have h2 : dropLead cs = [] := dropLead_eq_nil_iff.2 (dropTrail_eq_nil_iff.1 h)
        rw [h2]
        rfl
      · rw [if_neg h]
        have h2 : dropLead (c :: dropTrail cs) = dropLead (dropTrail cs) := by
          simp [dropLead, List.dropWhile_cons, hc]
        rw [h2, ih]
    · have hc' : isWs c = false := by simpa using hc
      have h1 : dropLead (c :: cs) = c :: cs := by
        simp [dropLead, List.dropWhile_cons, hc']
      rw [h1, dropTrail_cons_not_ws hc']
      simp [dropLead, List.dropWhile_cons, hc']

theorem pyStrip_idem (l : List Char) : pyStrip (pyStrip l) = pyStrip l := by
  show dropTrail (dropLead (dropTrail (dropLead l))) = dropTrail (dropLead l)
  rw [dropLead_dropTrail, dropLead_idem, dropTrail_idem]

/-- On an all-whitespace list the in-run squeeze produces nothing. -/
theorem sq_true_nil : ∀ (l : List Char), (∀ c ∈ l, isWs c) → squeezeAux true l = [] := by
  intro l
  induction l with
  | nil => intro _; rfl
  | cons c cs ih =>
    intro h
    have hc : isWs c := h c (List.mem_cons_self c cs)
    simp only [squeezeAux, hc, if_true]
    exact ih fun x hx => h x (List.mem_cons_of_mem c hx)

/-- The squeeze output is all-whitespace only if the input was. -/
theorem sq_all_ws_of : ∀ (l : List Char) (flag : Bool),
    (∀ c ∈ squeezeAux flag l, isWs c) → ∀ c ∈ l, isWs c := by
  intro l
  induction l with
  | nil => intro flag _ c hc; cases hc
  | cons c cs ih =>
    intro flag h x hx
    by_cases hc : isWs c
    · rcases List.mem_cons.1 hx with hx | hx
      · rw [hx]; exact hc
      · refine ih true ?_ x hx
        intro y hy
        cases flag
        · exact h y (by simp [squeezeAux, hc, hy])
        · exact h y (by simp [squeezeAux, hc, hy])
    · exfalso
      have : isWs c := h c (by simp [squeezeAux, hc])
      exact hc this

/-- Squeezing in-run equals squeezing the lead-stripped list out-of-run. -/
theorem squeezeAux_true_eq (l : List Char) :
    squeezeAux true l = squeezeAux false (dropLead l) := by
  induction l with
  | nil => rfl
  | cons c cs ih =>
    by_cases hc : isWs c
    · simp only [squeezeAux, hc, if_true]
      rw [ih]
      have : dropLead (c :: cs) = dropLead cs := by
        simp [dropLead, List.dropWhile_cons, hc]
      rw [this]
    · have hc' : isWs c = false := by simpa using hc
      have : dropLead (c :: cs) = c :: cs := by
        simp [dropLead, List.dropWhile_cons, hc']
      simp [squeezeAux, hc', this]

theorem dropLead_head_not_ws : ∀ {l : List Char} {d : Char} {ds : List Char},
    dropLead l = d :: ds → isWs d = false := by
  intro l
  induction l with
  | nil => intro d ds h; cases h
  | cons c cs ih =>
    intro d ds h
    by_cases hc : isWs c
    · rw [dropLead, List.dropWhile_cons, if_pos hc] at h
      exact ih h
    · rw [dropLead, List.dropWhile_cons, if_neg hc] at h
      cases h
      simpa using hc

/-- Squeezing commutes with dropping leading whitespace. -/
theorem dropLead_squeezeAux (l : List Char) :
    dropLead (squeezeAux false l) = squeezeAux false (dropLead l) := by
  cases l with
  | nil => rfl
  | cons c cs =>
    by_cases hc : isWs c
    · have h1 : dropLead (c :: cs) = dropLead cs := by
        simp [dropLead, List.dropWhile_cons, hc]
      simp only [squeezeAux, hc, if_true, Bool.false_eq_true, if_false, h1]
      have h2 : dropLead (' ' :: squeezeAux true cs) = dropLead (squeezeAux true cs) := by
        simp [dropLead, List.dropWhile_cons, isWs_space]
      rw [h2, squeezeAux_true_eq]
      cases hD : dropLead cs with
      | nil => rfl
      | cons d ds =>
        have hd := dropLead_head_not_ws hD
        simp [squeezeAux, hd, dropLead, List.dropWhile_cons]
    · have hc' : isWs c = false := by simpa using hc
      have h1 : dropLead (c :: cs) = c :: cs := by
        simp [dropLead, List.dropWhile_cons, hc']
      simp [squeezeAux, hc', h1, dropLead, List.dropWhile_cons]

/-- Squeezing commutes with dropping trailing whitespace. -/
theorem dropTrail_squeezeAux : ∀ (l : List Char) (flag : Bool),
    squeezeAux flag (dropTrail l) = dropTrail (squeezeAux flag l) := by
  intro l
  induction l with
  | nil => intro flag; rfl
  | cons c cs ih =>
    intro flag
    by_cases hc : isWs c
    · rw [dropTrail_cons]
      by_cases h : dropTrail cs = []
      · rw [if_pos h, if_pos hc]
        have hall : ∀ x ∈ cs, isWs x := dropTrail_eq_nil_iff.1 h
        have h1 : squeezeAux true cs = [] := sq_true_nil cs hall
        cases flag
        · simp [squeezeAux, hc, h1, dropTrail_cons, isWs_space, dropTrail_nil]
        · simp [squeezeAux, hc, h1, dropTrail_eq_nil_iff]
      · rw [if_neg h]
        have hY : dropTrail (squeezeAux true cs) ≠ [] := by
          intro hnil
          exact h (dropTrail_eq_nil_iff.2 (sq_all_ws_of cs true (dropTrail_eq_nil_iff.1 hnil)))
        cases flag
        · simp only [squeezeAux, hc, if_true, Bool.false_eq_true, if_false]
          rw [ih true, dropTrail_cons_ne hY]
        · simp only [squeezeAux, hc, if_true]
          exact ih true
    · have hc' : isWs c = false := by simpa using hc
      rw [dropTrail_cons_not_ws hc']
      cases flag
      · simp only [squeezeAux, hc', Bool.false_eq_true, if_false]
        rw [ih false, dropTrail_cons_not_ws hc']
      · simp only [squeezeAux, hc', Bool.false_eq_true, if_false]
        rw [ih false, dropTrail_cons_not_ws hc']

/-- Squeezing a list with a space inserted: the trailing whitespace of
the left part merges with the space and the leading whitespace of the
right part into a single space. -/
theorem squeezeAux_append_ws (b : List Char) : ∀ (a : List Char) (flag : Bool),
    squeezeAux flag (a ++ ' ' :: b)
      = if flag = true ∧ (∀ c ∈ a, isWs c) then squeezeAux false (dropLead b)
        else dropTrail (squeezeAux flag a) ++ ' ' :: squeezeAux false (dropLead b) := by
  intro a
  induction a with
  | nil =>
    intro flag
    cases flag
    · rw [if_neg (by simp)]
      simp only [List.nil_append, squeezeAux, isWs_space, if_true, Bool.false_eq_true, if_false]
      rw [squeezeAux_true_eq]
      rfl
    · rw [if_pos ⟨rfl, by simp⟩]
      simp only [List.nil_append, squeezeAux, isWs_space, if_true]
      exact squeezeAux_true_eq b
  | cons c cs ih =>
    intro flag
    by_cases hc : isWs c
    · cases flag
      · rw [if_neg (by simp)]
        simp only [List.cons_append, squeezeAux, hc, if_true, Bool.false_eq_true, if_false,
          List.append_eq]
        rw [ih true]
        by_cases hall : ∀ x ∈ cs, isWs x
        · rw [if_pos ⟨rfl, hall⟩]
          have h1 : squeezeAux true cs = [] := sq_true_nil cs hall
          simp [h1, dropTrail_cons, isWs_space, dropTrail_nil]
        · rw [if_neg (by simp [hall])]
          have hY : dropTrail (squeezeAux true cs) ≠ [] := by
            intro hnil
            exact hall (sq_all_ws_of cs true (dropTrail_eq_nil_iff.1 hnil))
          rw [dropTrail_cons_ne hY]
          rfl
      · simp only [List.cons_append, squeezeAux, hc, if_true, List.append_eq]
        rw [ih true]
        by_cases hall : ∀ x ∈ cs, isWs x
        · have hcc : ∀ x ∈ c :: cs, isWs x = true := by
            intro x hx
            rcases List.mem_cons.1 hx with hx | hx
            · rw [hx]; exact hc
            · exact hall x hx
          rw [if_pos ⟨rfl, hall⟩, if_pos ⟨trivial, hcc⟩]
        · rw [if_neg (by simp [hall]),
            if_neg (by intro hcon; exact hall fun x hx => hcon.2 x (List.mem_cons_of_mem c hx))]
    · have hc' : isWs c = false := by simpa using hc
      have hsq : ∀ fl : Bool, squeezeAux fl (c :: cs) = c :: squeezeAux false cs := by
        intro fl
        cases fl <;> simp [squeezeAux, hc']
      rw [if_neg (by intro hcon; exact hc (hcon.2 c (List.mem_cons_self c cs)))]
      have hstep : squeezeAux flag ((c :: cs) ++ ' ' :: b)
          = c :: squeezeAux false (cs ++ ' ' :: b) := by
        cases flag <;> simp [squeezeAux, hc']
      rw [hstep, ih false, if_neg (by simp), hsq flag, dropTrail_cons_not_ws hc']
      simp

/-- Gluing with an empty right part returns the left part. -/
theorem glue_nil_right (x : List Char) : glue x [] = x := by
  unfold glue
  by_cases hx : x = [] <;> simp [hx]

/-- Appending an all-whitespace tail does not change `dropTrail`. -/
theorem dropTrail_append_ws {z : List Char} (hz : ∀ c ∈ z, isWs c) (y : List Char) :
    dropTrail (y ++ z) = dropTrail y := by
  have h1 : z.reverse.dropWhile isWs = [] :=
    List.dropWhile_eq_nil_iff.2 fun x hx => hz x (List.mem_reverse.1 hx)
  show ((y ++ z).reverse.dropWhile isWs).reverse = _
  rw [List.reverse_append, List.dropWhile_append, if_pos (by simp [h1])]
  rfl

/-- Applying `dropTrail` over an append whose tail is not all-whitespace only
touches the tail. -/
theorem dropTrail_append_ne {z : List Char} (hz : dropTrail z ≠ []) (y : List Char) :
    dropTrail (y ++ z) = y ++ dropTrail z := by
  have h1 : z.reverse.dropWhile isWs ≠ [] := by
    intro h
    apply hz
    simp [dropTrail, h]
  show ((y ++ z).reverse.dropWhile isWs).reverse = _
  rw [List.reverse_append, List.dropWhile_append, if_neg (by simp [h1])]
  simp [dropTrail, List.reverse_append]

/-- Stripping the squeezed halves around a separating space produces the
glue of the two stripped halves. -/
theorem pyStrip_glue (A B : List Char) :
    pyStrip (dropTrail A ++ ' ' :: dropLead B) = glue (pyStrip A) (pyStrip B) := by
  by_cases h1 : dropTrail A = []
  · have hA : ∀ c ∈ A, isWs c := dropTrail_eq_nil_iff.1 h1
    have hA1 : dropLead A = [] := dropLead_eq_nil_iff.2 hA
    have hA2 : pyStrip A = [] := by
      show dropTrail (dropLead A) = []
      rw [hA1]
      rfl
    rw [h1, List.nil_append, hA2]
    show dropTrail (dropLead (' ' :: dropLead B)) = glue [] (dropTrail (dropLead B))
    have h2 : dropLead (' ' :: dropLead B) = dropLead (dropLead B) := by
      simp [dropLead, List.dropWhile_cons, isWs_space]
    rw [h2, dropLead_idem]
    simp [glue]
  · have hA'' : ¬ ∀ c ∈ dropTrail A, isWs c := by
      intro hall
      apply h1
      have h2 := dropTrail_eq_nil_iff.2 hall
      rwa [dropTrail_idem] at h2
    have hlead : dropLead (dropTrail A) ≠ [] := fun h => hA'' (dropLead_eq_nil_iff.1 h)
    have hlead' : (dropTrail A).dropWhile isWs ≠ [] := hlead
    show dropTrail (dropLead (dropTrail A ++ ' ' :: dropLead B)) = _
    have hsplit : dropLead (dropTrail A ++ ' ' :: dropLead B)
        = dropLead (dropTrail A) ++ ' ' :: dropLead B := by
      show (dropTrail A ++ ' ' :: dropLead B).dropWhile isWs = _
      rw [List.dropWhile_append, if_neg (by simp [hlead'])]
      rfl
    rw [hsplit, dropLead_dropTrail]
    by_cases h2 : dropTrail (dropLead B) = []
    · have hBws : ∀ c ∈ ' ' :: dropLead B, isWs c := by
        intro c hcm
        rcases List.mem_cons.1 hcm with hcm | hcm
        · rw [hcm]; rfl
        · exact dropTrail_eq_nil_iff.1 h2 c hcm
      rw [dropTrail_append_ws hBws, dropTrail_idem]
      show _ = glue (dropTrail (dropLead A)) (dropTrail (dropLead B))
      rw [h2, glue_nil_right]
    · have hcons : dropTrail (' ' :: dropLead B) = ' ' :: dropTrail (dropLead B) :=
        dropTrail_cons_ne h2 ' '
      rw [dropTrail_append_ne (by rw [hcons]; simp) _, hcons]
      have hx : dropTrail (dropLead A) ≠ [] := by
        rw [← dropLead_dropTrail]
        exact hlead
      show _ = glue (dropTrail (dropLead A)) (dropTrail (dropLead B))
      rw [glue, if_neg hx, if_neg h2]

/-- Normalization of two texts joined by a space is the glue
of their normalizations. -/
theorem normList_append_glue (a b : List Char) :
    pyStrip (squeezeWs (a ++ ' ' :: b))
      = glue (pyStrip (squeezeWs a)) (pyStrip (squeezeWs b)) := by
  show pyStrip (squeezeAux false (a ++ ' ' :: b)) = _
  rw [squeezeAux_append_ws b a false, if_neg (by simp)]
  rw [← dropLead_squeezeAux]
  exact pyStrip_glue (squeezeAux false a) (squeezeAux false b)

/-- Normalization ignores a preliminary `strip`. -/
theorem normList_pyStrip (l : List Char) :
    pyStrip (squeezeWs (pyStrip l)) = pyStrip (squeezeWs l) := by
  show pyStrip (squeezeAux false (dropTrail (dropLead l))) = pyStrip (squeezeAux false l)
  rw [dropTrail_squeezeAux (dropLead l) false, ← dropLead_squeezeAux l]
  exact pyStrip_idem (squeezeAux false l)

/-- Normalized text of the stripped space-join of two strings: the glue
of the two normalized texts. -/
theorem norm_concat (x y : String) :
    (_normalize_whitespace (pyStripStr (x ++ " " ++ y))).data
      = glue (_normalize_whitespace x).data (_normalize_whitespace y).data := by
  show pyStrip (squeezeWs (pyStrip (x ++ " " ++ y).data))
      = glue (pyStrip (squeezeWs x.data)) (pyStrip (squeezeWs y.data))
  rw [normList_pyStrip]
  have hdata : (x ++ " " ++ y).data = x.data ++ ' ' :: y.data := by
    rw [String.data_append, String.data_append]
    simp
  rw [hdata]
  exact normList_append_glue x.data y.data

theorem glue_left_pref (x y : List Char) : x <+: glue x y := by
  unfold glue
  by_cases hx : x = []
  · simp [hx]
  · by_cases hy : y = []
    · simp [hx, hy]
    · simp only [hx, hy, if_false]
      exact List.prefix_append x (' ' :: y)

theorem glue_right_suf (x y : List Char) : y <:+ glue x y := by
  unfold glue
  by_cases hx : x = []
  · simp [hx]
  · by_cases hy : y = []
    · simp [hx, hy]
    · simp only [hx, hy, if_false]
      exact List.IsSuffix.trans (List.suffix_cons ' ' y) (List.suffix_append x (' ' :: y))

/-- A sublist relation holds of any list with itself. -/
theorem inf_self (l : List Char) : l <:+: l := ⟨[], [], by simp⟩

/-- An initial sublist is in particular a contiguous sublist. -/
theorem inf_of_pref {l1 l2 : List Char} (h : l1 <+: l2) : l1 <:+: l2 := by
  obtain ⟨t, ht⟩ := h
  exact ⟨[], t, by simp [ht]⟩

/-- A final sublist is in particular a contiguous sublist. -/
theorem inf_of_suf {l1 l2 : List Char} (h : l1 <:+ l2) : l1 <:+: l2 := by
  obtain ⟨t, ht⟩ := h
  exact ⟨t, [], by simp [ht]⟩

/-- Contiguous-sublist relations compose. -/
theorem inf_trans {l1 l2 l3 : List Char} (h1 : l1 <:+: l2) (h2 : l2 <:+: l3) :
    l1 <:+: l3 := by
  obtain ⟨a, b, hab⟩ := h1
  obtain ⟨c, d, hcd⟩ := h2
  exact ⟨c ++ a, b ++ d, by rw [← hcd, ← hab]; simp⟩

/-! ### Helper lemmas about the merger loop -/

/-- The loop `mergeGo` only ever appends to the already-flushed prefix `merged`. -/
theorem mergeGo_append (d : ℚ) :
    ∀ (rest merged : List Segment) (cs ce : ℚ) (ct : String),
      mergeGo d merged cs ce ct rest = merged ++ mergeGo d [] cs ce ct rest := by
  intro rest
  induction rest with
  | nil => intro merged cs ce ct; simp [mergeGo]
  | cons x rest ih =>
    intro merged cs ce ct
    obtain ⟨s, e, t⟩ := x
    by_cases h : ce - cs < d
    · simp only [mergeGo, if_pos h]
      exact ih merged cs e (pyStripStr (ct ++ " " ++ t))
    · simp only [mergeGo, if_neg h, List.nil_append]
      rw [ih (merged ++ [(cs, ce, ct)]), ih [(cs, ce, ct)]]
      simp [List.append_assoc]

/-- Segments already flushed into `merged` appear in `mergeGo`'s output. -/
theorem mergeGo_mem (d : ℚ) :
    ∀ (rest merged : List Segment) (cs ce : ℚ) (ct : String),
      ∀ x ∈ merged, x ∈ mergeGo d merged cs ce ct rest := by
  intro rest
  induction rest with
  | nil => intro merged cs ce ct x hx; simp [mergeGo, hx]
  | cons y rest ih =>
    intro merged cs ce ct x hx
    obtain ⟨s, e, t⟩ := y
    by_cases h : ce - cs < d
    · simp only [mergeGo, if_pos h]
      exact ih merged cs e (pyStripStr (ct ++ " " ++ t)) x hx
    · simp only [mergeGo, if_neg h]
      exact ih (merged ++ [(cs, ce, ct)]) s e t x (List.mem_append_left _ hx)

/-- Every segment flushed by `mergeGo` before the last one was flushed
through the `else` branch, with duration at least `d`. -/
theorem mergeGo_dropLast (d : ℚ) :
    ∀ (rest merged : List Segment) (cs ce : ℚ) (ct : String),
      (∀ x ∈ merged, d ≤ x.2.1 - x.1) →
      ∀ x ∈ (mergeGo d merged cs ce ct rest).dropLast, d ≤ x.2.1 - x.1 := by
  intro rest
  induction rest with
  | nil =>
    intro merged cs ce ct hm x hx
    rw [mergeGo, List.dropLast_concat] at hx
    exact hm x hx
  | cons y rest ih =>
    intro merged cs ce ct hm x hx
    obtain ⟨s, e, t⟩ := y
    by_cases h : ce - cs < d
    · rw [mergeGo, if_pos h] at hx
      exact ih merged cs e (pyStripStr (ct ++ " " ++ t)) hm x hx
    · rw [mergeGo, if_neg h] at hx
      refine ih (merged ++ [(cs, ce, ct)]) s e t ?_ x hx
      intro z hz
      rcases List.mem_append.1 hz with hz | hz
      · exact hm z hz
      · rw [List.mem_singleton.1 hz]
        exact not_lt.1 h

/-- Anything infix of the normalized accumulator text survives into some
output text of `mergeGo`. -/
theorem mergeGo_text (d : ℚ) : ∀ (rest merged : List Segment)
    (cs ce : ℚ) (ct : String) (n : List Char),
    n <:+: (_normalize_whitespace ct).data →
    ∃ y ∈ mergeGo d merged cs ce ct rest, n <:+: (_normalize_whitespace y.2.2).data := by
  intro rest
  induction rest with
  | nil =>
    intro merged cs ce ct n hn
    exact ⟨(cs, ce, ct), by simp [mergeGo], hn⟩
  | cons z rest ih =>
    intro merged cs ce ct n hn
    obtain ⟨s, e, t⟩ := z
    by_cases h : ce - cs < d
    · simp only [mergeGo, if_pos h]
      refine ih merged cs e (pyStripStr (ct ++ " " ++ t)) n ?_
      refine inf_trans hn ?_
      rw [norm_concat]
      exact inf_of_pref (glue_left_pref _ _)
    · simp only [mergeGo, if_neg h]
      exact ⟨(cs, ce, ct),
        mergeGo_mem d rest (merged ++ [(cs, ce, ct)]) s e t _ (by simp), hn⟩

/-- Every not-yet-processed input text survives into some output text of
`mergeGo`. -/
theorem mergeGo_rest_text (d : ℚ) : ∀ (rest merged : List Segment)
    (cs ce : ℚ) (ct : String), ∀ seg ∈ rest,
    ∃ y ∈ mergeGo d merged cs ce ct rest,
      (_normalize_whitespace seg.2.2).data <:+: (_normalize_whitespace y.2.2).data := by
  intro rest
  induction rest with
  | nil => intro merged cs ce ct seg hseg; cases hseg
  | cons z rest ih =>
    intro merged cs ce ct seg hseg
    obtain ⟨s, e, t⟩ := z
    rcases List.mem_cons.1 hseg with hseg | hseg
    · subst hseg
      by_cases h : ce - cs < d
      · simp only [mergeGo, if_pos h]
        refine mergeGo_text d rest merged cs e (pyStripStr (ct ++ " " ++ t)) _ ?_
        rw [norm_concat]
        exact inf_of_suf (glue_right_suf _ _)
      · simp only [mergeGo, if_neg h]
        exact mergeGo_text d rest (merged ++ [(cs, ce, ct)]) s e t _ ( inf_self _)
    · by_cases h : ce - cs < d
      · simp only [mergeGo, if_pos h]
        exact ih merged cs e (pyStripStr (ct ++ " " ++ t)) seg hseg
      · simp only [mergeGo, if_neg h]
        exact ih (merged ++ [(cs, ce, ct)]) s e t seg hseg

/-- The sentence-collection loop just extends its buffer over characters
that are not sentence terminators. -/
theorem collectGo_skip : ∀ (l : List Char) (sents : List String) (buf rest : List Char),
    (∀ c ∈ l, c ∉ SENTENCE_ENDERS) →
    collectGo sents buf (l ++ rest) = collectGo sents (buf ++ l) rest := by
  intro l
  induction l with
  | nil => intro sents buf rest _; simp
  | cons c cs ih =>
    intro sents buf rest h
    have hc : c ∉ SENTENCE_ENDERS := h c (List.mem_cons_self c cs)
    simp only [List.cons_append, collectGo, List.append_eq]
    rw [if_neg hc]
    rw [ih sents (buf ++ [c]) rest fun x hx => h x (List.mem_cons_of_mem c hx)]
    simp

/-! ### Claim theorems -/

/-- Claim C1: `merge_short_segments` walks the list with an accumulator
seeded from the first segment; a later segment is merged into the
accumulator (end extended to the later segment's end, texts space-joined
and stripped) exactly when the accumulator's duration `end - start` is
strictly below `min_duration`, and otherwise the accumulator is flushed
and restarted from that segment; the condition never looks at the next
segment's own duration; the final accumulator is always flushed; empty
input gives empty output and a single segment is returned unchanged. -/
theorem merge_short_segments_rec (d : ℚ) :
    merge_short_segments [] d = []
    ∧ (∀ x : Segment, merge_short_segments [x] d = [x])
    ∧ ∀ (s0 e0 : ℚ) (t0 : String) (s e : ℚ) (t : String) (rest : List Segment),
        merge_short_segments ((s0, e0, t0) :: (s, e, t) :: rest) d =
          if e0 - s0 < d then
            merge_short_segments ((s0, e, pyStripStr (t0 ++ " " ++ t)) :: rest) d
          else (s0, e0, t0) :: merge_short_segments ((s, e, t) :: rest) d := by
  refine ⟨rfl, ?_, ?_⟩
  · intro x
    obtain ⟨s, e, t⟩ := x
    rfl
  · intro s0 e0 t0 s e t rest
    by_cases h : e0 - s0 < d
    · simp only [merge_short_segments, mergeGo, if_pos h]
    · simp only [merge_short_segments, mergeGo, if_neg h, List.nil_append]
      rw [mergeGo_append d rest [(s0, e0, t0)]]
      simp

/-- Claim C2: On the concrete example the two short leading segments merge
into one and the long one stays; the numbered-subtitle rendering of the
first merged segment is the exact SRT block with 1-based index,
comma-millisecond clock range, trimmed text and trailing blank line. -/
theorem merge_example_and_srt :
    merge_short_segments [(0, 2/5, "Hello"), (2/5, 9/10, "world."), (12, 13, "Next.")] (3/5)
      = [(0, 9/10, "Hello world."), (12, 13, "Next.")]
    ∧ write_srt [(0, 9/10, "Hello world.")]
      = "1\n00:00:00,000 --> 00:00:00,900\nHello world.\n\n" :=
  ⟨by decide, by decide⟩

/-- Claim C3: For every non-negative number of seconds the comma-separator
formatter `hhmmss_ms` and the dot-separator formatter `webvtt_ts`
produce the same `HH`, `MM`, `SS` and `mmm` digit groups, differing only
in the character between seconds and milliseconds. -/
theorem clock_formats_agree (seconds : ℚ) (_h : 0 ≤ seconds) :
    ∃ hh mm ss mmm : String,
      hhmmss_ms seconds = hh ++ ":" ++ mm ++ ":" ++ ss ++ "," ++ mmm
      ∧ webvtt_ts seconds = hh ++ ":" ++ mm ++ ":" ++ ss ++ "." ++ mmm :=
  ⟨_, _, _, _, rfl, rfl⟩

/-- Witness for `clock_formats_agree` at the spec's example
`3725.4 = 18627/5` seconds. -/
theorem clock_formats_agree_witness :
    0 ≤ (18627/5 : ℚ)
    ∧ ∃ hh mm ss mmm : String,
        hhmmss_ms (18627/5) = hh ++ ":" ++ mm ++ ":" ++ ss ++ "," ++ mmm
        ∧ webvtt_ts (18627/5) = hh ++ ":" ++ mm ++ ":" ++ ss ++ "." ++ mmm :=
  ⟨by decide, clock_formats_agree (18627/5) (by decide)⟩

/-- Claim C5: `bucket_segments` is the identity on degenerate parameters:
a non-positive bucket width returns the input unchanged, and empty input
is returned unchanged for every width. -/
theorem bucket_segments_degenerate (segs : List Segment) (w : ℚ) :
    (w ≤ 0 → bucket_segments segs w = segs) ∧ bucket_segments [] w = [] := by
  constructor
  · intro h
    cases segs with
    | nil => rfl
    | cons x rest =>
      obtain ⟨s, e, t⟩ := x
      simp only [bucket_segments, if_pos h]
  · rfl

/-- Witness for `bucket_segments_degenerate` at width `-1`. -/
theorem bucket_segments_degenerate_witness :
    ((-1 : ℚ) ≤ 0 ∧ bucket_segments [(1, 2, "x")] (-1) = [(1, 2, "x")])
    ∧ bucket_segments [] (-1 : ℚ) = [] :=
  ⟨⟨by decide, (bucket_segments_degenerate [(1, 2, "x")] (-1)).1 (by decide)⟩,
    (bucket_segments_degenerate [] (-1)).2⟩

/-- Claim C6: Bucketing the merged example at width 10 yields the two
expected aggregates, and the timestamped text rendering is the exact
two-line output. -/
theorem bucket_example_and_txt :
    bucket_segments [(0, 9/10, "Hello world."), (12, 13, "Next.")] 10
      = [(0, 9/10, "Hello world."), (12, 13, "Next.")]
    ∧ write_txt [(0, 9/10, "Hello world."), (12, 13, "Next.")] true
      = "[00:00] Hello world.\n[00:12] Next.\n" :=
  ⟨by decide, by decide⟩

/-- Claim C8: For every segment list, a style that is not a supported
style makes `format_transcript` fail with an "Unsupported transcript
style" error naming the style, rather than returning text. -/
theorem format_transcript_unsupported (segs : List Segment) (s : String)
    (h0 : s ≠ "") (h1 : pyLower s ≠ "plain") (h2 : pyLower s ≠ "markdown") :
    format_transcript segs (some s)
      = Except.error ("Unsupported transcript style: " ++ pyLower s) := by
  simp only [format_transcript, if_neg h0, if_neg h1, if_neg h2]

/-- Witness for `format_transcript_unsupported` at the style
`"unknown"`. -/
theorem format_transcript_unsupported_witness :
    (("unknown" : String) ≠ ""
      ∧ pyLower "unknown" ≠ "plain" ∧ pyLower "unknown" ≠ "markdown")
    ∧ format_transcript [] (some "unknown")
        = Except.error ("Unsupported transcript style: " ++ pyLower "unknown") :=
  ⟨⟨by decide, by decide, by decide⟩,
    format_transcript_unsupported [] "unknown" (by decide) (by decide) (by decide)⟩

/-- Claim C9: `format_transcript` normalizes the style before dispatch:
`None` and `""` are treated as `"plain"` and return the plain rendering
instead of raising; matching is case-insensitive (`"Plain"` and
`"MARKDOWN"` are accepted); and the unsupported-style error reports the
lowercased form of the offending value. -/
theorem format_transcript_style_normalization (segs : List Segment) :
    format_transcript segs none = Except.ok (format_plain_text segs)
    ∧ format_transcript segs (some "") = Except.ok (format_plain_text segs)
    ∧ format_transcript segs (some "Plain") = Except.ok (format_plain_text segs)
    ∧ format_transcript segs (some "MARKDOWN") = Except.ok (format_markdown_text segs)
    ∧ format_transcript segs (some "UNKNOWN")
        = Except.error "Unsupported transcript style: unknown" :=
  ⟨rfl, rfl, rfl, rfl, rfl⟩

/-- Claim C10: Every output segment of `merge_short_segments` except
possibly the last has duration at least `min_duration`; the final
accumulator is flushed unconditionally, and on some inputs the last
output segment is strictly shorter than `min_duration`. -/
theorem merge_short_min_duration :
    (∀ (segs : List Segment) (d : ℚ),
        ∀ x ∈ (merge_short_segments segs d).dropLast, d ≤ x.2.1 - x.1)
    ∧ merge_short_segments [(0, 1, "a")] 2 = [(0, 1, "a")]
    ∧ ((1 : ℚ) - 0 < 2) := by
  refine ⟨?_, by decide, by decide⟩
  intro segs d x hx
  cases segs with
  | nil => simp [merge_short_segments] at hx
  | cons y rest =>
    obtain ⟨s, e, t⟩ := y
    exact mergeGo_dropLast d rest [] s e t (by simp) x hx

/-- Claim C4: `merge_short_segments` never shrinks total text content:
merging the empty list yields the empty list, and for every input
segment its whitespace-normalized text occurs as a contiguous substring
of the whitespace-normalized text of some output segment. -/
theorem merge_preserves_text (segs : List Segment) (d : ℚ) :
    merge_short_segments [] d = []
    ∧ ∀ seg ∈ segs, ∃ out ∈ merge_short_segments segs d,
        (_normalize_whitespace seg.2.2).data <:+: (_normalize_whitespace out.2.2).data := by
  refine ⟨rfl, ?_⟩
  cases segs with
  | nil => intro seg hseg; cases hseg
  | cons z rest =>
    obtain ⟨s, e, t⟩ := z
    intro seg hseg
    rcases List.mem_cons.1 hseg with hseg | hseg
    · subst hseg
      exact mergeGo_text d rest [] s e t _ ( inf_self _)
    · exact mergeGo_rest_text d rest [] s e t seg hseg

/-- Witness for `merge_preserves_text`: `"Hello"` survives into the
merged text `"Hello world."`. -/
theorem merge_preserves_text_witness :
    (((0 : ℚ), (2/5 : ℚ), "Hello")
        ∈ [((0 : ℚ), (2/5 : ℚ), "Hello"), ((2/5 : ℚ), (9/10 : ℚ), "world.")])
    ∧ ∃ out ∈ merge_short_segments
        [((0 : ℚ), (2/5 : ℚ), "Hello"), ((2/5 : ℚ), (9/10 : ℚ), "world.")] (3/5),
        (_normalize_whitespace ((0 : ℚ), (2/5 : ℚ), "Hello").2.2).data
          <:+: (_normalize_whitespace out.2.2).data :=
  ⟨by decide, (merge_preserves_text _ _).2 _ (by decide)⟩

/-- Claim C7: Sentence reconstruction is idempotent on already-normalized
single-sentence input: if `s` is a fixpoint of whitespace normalization,
non-empty, ends with a character of the terminator set, and contains no
earlier terminator character, then `_collect_sentences [s] = [s]`, with
the terminator kept as part of the sentence. -/
theorem collect_sentences_single (s : String) (init : List Char) (e : Char)
    (hnorm : _normalize_whitespace s = s) (hne : s ≠ "")
    (hdata : s.data = init ++ [e]) (he : e ∈ SENTENCE_ENDERS)
    (hinit : ∀ c ∈ init, c ∉ SENTENCE_ENDERS) :
    _collect_sentences [s] = [s] := by
  have hndata : pyStrip (squeezeWs s.data) = s.data := congrArg String.data hnorm
  have hstripdata : pyStrip s.data = s.data := by
    conv_lhs => rw [← hndata]
    rw [pyStrip_idem, hndata]
  have hstrip : pyStripStr s = s := by
    show String.mk (pyStrip s.data) = s
    rw [hstripdata]
  have h1 : (([s] : List String).filter fun c => pyStripStr c ≠ "") = [s] := by
    simp [List.filter, hstrip, hne]
  have hjoined : _normalize_whitespace
      (joinWith " " ((([s] : List String).filter fun c => pyStripStr c ≠ "").map pyStripStr))
      = s := by
    rw [h1]
    show _normalize_whitespace (joinWith " " [pyStripStr s]) = s
    rw [hstrip]
    exact hnorm
  simp only [_collect_sentences, hjoined]
  rw [if_neg hne, hdata]
  have h2 := collectGo_skip init [] [] [e] hinit
  rw [List.nil_append] at h2
  rw [h2]
  simp only [collectGo]
  rw [if_pos he]
  have hmk : String.mk (init ++ [e]) = s := by
    rw [← hdata]
  rw [hmk, hnorm, if_neg hne]
  simp [collectGo]

/-- Witness for `collect_sentences_single` at `s = "Hello world."`. -/
theorem collect_sentences_single_witness :
    (_normalize_whitespace "Hello world." = "Hello world."
      ∧ ("Hello world." : String) ≠ ""
      ∧ ("Hello world." : String).data
          = ['H', 'e', 'l', 'l', 'o', ' ', 'w', 'o', 'r', 'l', 'd'] ++ ['.']
      ∧ '.' ∈ SENTENCE_ENDERS
      ∧ ∀ c ∈ ['H', 'e', 'l', 'l', 'o', ' ', 'w', 'o', 'r', 'l', 'd'],
          c ∉ SENTENCE_ENDERS)
    ∧ _collect_sentences ["Hello world."] = ["Hello world."] :=
  ⟨⟨by decide, by decide, by decide, by decide, by decide⟩,
    collect_sentences_single "Hello world."
      ['H', 'e', 'l', 'l', 'o', ' ', 'w', 'o', 'r', 'l', 'd'] '.'
      (by decide) (by decide) (by decide) (by decide) (by decide)⟩

/-- Witness for `merge_short_min_duration` on a two-segment input whose
first flushed segment has duration `3 ≥ 2`. -/
theorem merge_short_min_duration_witness :
    (((0 : ℚ), (3 : ℚ), "a") ∈ (merge_short_segments [(0, 3, "a"), (5, 6, "b")] 2).dropLast)
    ∧ (2 : ℚ) ≤ ((0 : ℚ), (3 : ℚ), "a").2.1 - ((0 : ℚ), (3 : ℚ), "a").1 :=
  ⟨by decide,
    merge_short_min_duration.1 [(0, 3, "a"), (5, 6, "b")] 2 ((0 : ℚ), (3 : ℚ), "a") (by decide)⟩

end Revoice
